import Mathlib

/-!
Verification development for the `msftool` archive codec (`src/main.c`).

The C program is shallowly embedded:
  * byte streams, file names and file contents are `List Nat` of byte values;
  * the machine integers `uint32_t` / `uint8_t` are `Nat` with explicit
    `% 4294967296` / `% 256` at the points where the C code stores into or
    wraps such a field;
  * the filesystem seen by the directory scanner is an inductive tree whose
    nodes can also represent the two failure modes of the scanner
    (`opendir` failing on a directory, `stat` failing on a child);
  * the stateful pack / unpack pipelines are pure functions from their
    inputs to a record of all of their observable effects (bytes written,
    files materialised, diagnostics on stderr, return status, event trace).
-/

namespace MSF

/-- `2 ^ 32`: the modulus of the C type `uint32_t`. -/
def U32 : Nat := 4294967296

/-- The 8-byte magic `MSF_MAGIC` ("\x00\x00\x03\xE7\x00\x00\x00\x02"). -/
def MSF_MAGIC : List Nat := [0, 0, 3, 231, 0, 0, 0, 2]

/-- `MSF_MAX_NAMELEN` (255): limited by the length field being one byte. -/
def MSF_MAX_NAMELEN : Nat := 255

/-- `struct msf_entry` (the `name` array is modelled as the list of the
`namelen` bytes that are actually in use). -/
structure msf_entry where
  ofs : Nat
  len : Nat
  namelen : Nat
  name : List Nat
deriving DecidableEq, Inhabited, Repr

/-- `write8`: one byte is appended to the stream (`uint8_t` wraps). -/
def write8 (v : Nat) : List Nat := [v % 256]

/-- `write32be`: `__builtin_bswap32` followed by `fwrite`; the four bytes of
`v` in big-endian order. -/
def write32be (v : Nat) : List Nat :=
  [v / 16777216 % 256, v / 65536 % 256, v / 256 % 256, v % 256]

/-- `read8` at stream position `pos`: reading past the end of the stream
yields 0 (the C `fread` then fails and leaves the zero-initialised
destination untouched). -/
def read8 (s : List Nat) (pos : Nat) : Nat := s.getD pos 0 % 256

/-- `read32be` at stream position `pos`: four bytes, big-endian. -/
def read32be (s : List Nat) (pos : Nat) : Nat :=
  read8 s pos * 16777216 + read8 s (pos + 1) * 65536 +
    read8 s (pos + 2) * 256 + read8 s (pos + 3)

/-- The contents of a C string buffer up to its terminating NUL byte, as
used by `snprintf`/`printf` with `%s`. -/
def cstr (l : List Nat) : List Nat := l.takeWhile (fun b => b != 0)

/-- `snprintf(path, sizeof(path), "%s/%s", dir, name)` with
`char path[MSF_MAX_NAMELEN * 2 + 1]`: the composed path, truncated to the
510 characters that fit in the buffer. -/
def sn_path (dir nm : List Nat) : List Nat := (dir ++ 47 :: cstr nm).take 510

/-! ### `mkpath` and its collaborator `mkdir` -/

/-- Directory separators recognised by `mkpath`: `/` (47) and `\` (92). -/
def isSep (b : Nat) : Bool := b == 47 || b == 92

/-- The parent path of `p`: everything before the last separator (empty if
`p` has no separator, meaning the current directory). -/
def parentDir (p : List Nat) : List Nat :=
  ((p.reverse.dropWhile (fun b => !isSep b)).drop 1).reverse

/-- Modelled from the POSIX contract of the external collaborator
`mkdir(2)` over a set `fs` of existing directory paths: the call succeeds
(returning the enlarged set) iff the path is nonempty, does not already
exist (otherwise `EEXIST`), and its parent directory exists. -/
def mkdirM (fs : List (List Nat)) (p : List Nat) : Option (List (List Nat)) :=
  if p = [] then none
  else if p ∈ fs then none
  else if parentDir p = [] ∨ parentDir p ∈ fs then some (p :: fs)
  else none

/-- The successive proper path prefixes on which `mkpath` calls `mkdir`:
one for each separator character in `path`, in order. -/
def sepCuts (path : List Nat) : List (List Nat) :=
  (List.range path.length).filterMap
    (fun k => if isSep (path.getD k 0) then some (path.take k) else none)

/-- Result of a `mkpath` run: its return value and the directory set
afterwards. -/
structure mkpath_result where
  ret : Int
  fs : List (List Nat)
deriving DecidableEq, Repr

/-- One iteration of the `mkpath` loop at a separator: call `mkdir` on the
prefix; on success record `ret = 0`, on failure leave the state alone. -/
def mkpath_step (st : mkpath_result) (p : List Nat) : mkpath_result :=
  match mkdirM st.fs p with
  | some fs2 => { ret := 0, fs := fs2 }
  | none => st

/-- `mkpath`: walk the path left to right; at every separator, temporarily
terminate the string and call `mkdir` on the prefix; `ret` becomes 0 as soon
as one `mkdir` call succeeds and is never reset. -/
def mkpath (fs0 : List (List Nat)) (path : List Nat) : mkpath_result :=
  (sepCuts path).foldl mkpath_step { ret := -1, fs := fs0 }

/-! ### The filesystem trees seen by the directory scanner -/

mutual
/-- A node of the source tree walked by `msf_walk`.  `special` is a child
that is neither a regular file nor a directory (socket, device, symlink);
`badDir` is a directory on which `opendir` fails; `badStat` is a child on
which `stat` fails. -/
inductive fs_node where
  | file (name : List Nat) (content : List Nat)
  | dir (name : List Nat) (children : fs_list)
  | special (name : List Nat)
  | badDir (name : List Nat)
  | badStat (name : List Nat)
/-- The ordered children of a directory, in `readdir` order. -/
inductive fs_list where
  | nil
  | cons (hd : fs_node) (tl : fs_list)
end

/-- The `d_name` of a directory entry. -/
def nodeName : fs_node → List Nat
  | fs_node.file nm _ => nm
  | fs_node.dir nm _ => nm
  | fs_node.special nm => nm
  | fs_node.badDir nm => nm
  | fs_node.badStat nm => nm

/-- `dent->d_name[0] == '.'`: hidden entries (and `.`/`..`) are skipped. -/
def hiddenName (nm : List Nat) : Bool := nm.headD 0 == 46

/-- The relative path of a child named `nm` under the relative prefix
`pre` (the root strips to the empty prefix). -/
def childRel (pre nm : List Nat) : List Nat :=
  if pre = [] then nm else pre ++ 47 :: nm

/-! ### `msf_walk` -/

/-- The scanner state threaded through `msf_walk`: the (reallocated) entry
array together with, for each entry, the relative path and the bytes of
the source file it was built from (the C code re-opens the file by its
stored name in the data pass; the tree is immutable here, so path and
bytes are carried alongside to model that filesystem read-back), the
running file count, the running `datastart` accumulator, and the number
of error lines printed to stderr. -/
structure walk_state where
  ent : List (msf_entry × List Nat × List Nat)
  fcount : Nat
  datastart : Nat
  errors : Nat
deriving DecidableEq, Repr

/-- The entry built by `msf_walk` for a regular file: `len` is `st_size`
stored into a `uint32_t`, `namelen` is `strlen(path) - baselen` stored into
a `uint8_t` (silent wrap at 256), and `memcpy` copies exactly `namelen`
bytes of the relative path into `name`. -/
def mkEntry (rel c : List Nat) : msf_entry :=
  { ofs := 0
    len := c.length % U32
    namelen := rel.length % 256
    name := rel.take (rel.length % 256) }

/-- The regular-file branch of the `msf_walk` loop: the table is
reallocated to `fcount + 1` entries (keeping the first `fcount`), the new
entry is written at index `fcount`, and `datastart` grows by
`sizeof(uint32_t) * 2 + 1 + namelen`. -/
def addFile (st : walk_state) (rel c : List Nat) : walk_state :=
  { ent := st.ent.take st.fcount ++ [(mkEntry rel c, rel, c)]
    fcount := (st.fcount + 1) % U32
    datastart := (st.datastart + (9 + (mkEntry rel c).namelen)) % U32
    errors := st.errors }

mutual
/-- One non-hidden directory entry inside the `msf_walk` loop.  The `Bool`
is true when the entry makes the current invocation `return 0` at once
(a `stat` failure); a failing `opendir` inside the recursion only zeroes
the file count returned to this level, after which the loop continues. -/
def msf_walk_node (pre : List Nat) (st : walk_state) : fs_node → walk_state × Bool
  | fs_node.file nm c => (addFile st (childRel pre nm) c, false)
  | fs_node.dir nm cs => (msf_walk_list (childRel pre nm) st cs, false)
  | fs_node.special _ => (st, false)
  | fs_node.badDir _ => ({ st with fcount := 0, errors := st.errors + 1 }, false)
  | fs_node.badStat _ => ({ st with fcount := 0, errors := st.errors + 1 }, true)
/-- The `readdir` loop of one `msf_walk` invocation whose `opendir`
succeeded. -/
def msf_walk_list (pre : List Nat) (st : walk_state) : fs_list → walk_state
  | fs_list.nil => st
  | fs_list.cons n rest =>
    if hiddenName (nodeName n) then msf_walk_list pre st rest
    else
      match msf_walk_node pre st n with
      | (st2, true) => st2
      | (st2, false) => msf_walk_list pre st2 rest
end

/-- The top-level `msf_walk` call made by `msf_pack` on the root path: if
the root is not an openable directory, `opendir` fails and the walk
returns 0 after printing an error. -/
def msf_walk_root (root : fs_node) (st : walk_state) : walk_state :=
  match root with
  | fs_node.dir _ cs => msf_walk_list [] st cs
  | _ => { st with fcount := 0, errors := st.errors + 1 }

/-! ### `msf_pack` -/

/-- The bytes one table entry occupies on the wire:
offset, length, name length, then exactly `namelen` name bytes. -/
def entryBytes (e : msf_entry) : List Nat :=
  write32be e.ofs ++ write32be e.len ++ write8 e.namelen ++ e.name

/-- The table-writing loop: each entry receives `ofs = curofs`, after which
`curofs` advances by the entry's length (`uint32_t` wrap). -/
def assignOfs (cur : Nat) :
    List (msf_entry × List Nat × List Nat) →
      List (msf_entry × List Nat × List Nat)
  | [] => []
  | (e, rc) :: rest =>
    ({ e with ofs := cur }, rc) :: assignOfs ((cur + e.len) % U32) rest

/-- The file-writing loop of `msf_pack`: for each table entry in order,
compose `dirpath/name` from the *stored* name with `snprintf`, `fopen` it,
read `len` bytes and append them to the archive.  The open succeeds
exactly when the stored name, used as a C string, still equals the
relative path of the file the entry was scanned from; a stored name the
`uint8_t` wrap truncated no longer does, so `fopen` fails, one
`error: could not read` line is printed, and the loop aborts
(`goto _end`, return -1) with no further data written.  (A truncated name
that happens to coincide with the path of some other existing file, and
allocation failure of the staging buffer, are environment conditions not
modelled.)  Returns the data bytes written and the number of error lines
printed. -/
def msf_data_pass : List (msf_entry × List Nat × List Nat) → List Nat × Nat
  | [] => ([], 0)
  | (e, rel, c) :: rest =>
    if cstr e.name = rel then
      let r := msf_data_pass rest
      (c.take e.len ++ r.1, r.2)
    else ([], 1)

/-- Result of a `msf_pack` run: the bytes written to the archive stream,
the return value, the number of stderr error lines, whether the
`assert(datastart == ftell(f))` aborted the process after the table was
written, and the final entry table. -/
structure pack_result where
  out : List Nat
  ret : Int
  errors : Nat
  aborted : Bool
  table : List msf_entry
deriving DecidableEq, Repr

/-- `msf_pack`: walk the tree, abort if no files were counted, write the
header, write the table while assigning offsets starting at `datastart`,
check the `assert`, then run the data pass (`msf_data_pass`): re-open each
file by its stored name and append exactly `len` bytes, aborting on the
first failing open.  Note that the C function never sets `ret` to 0: it
returns -1 on every path. -/
def msf_pack (root : fs_node) : pack_result :=
  let st := msf_walk_root root
    { ent := [], fcount := 0, datastart := 12, errors := 0 }
  if st.fcount = 0 then
    { out := [], ret := -1, errors := st.errors, aborted := false, table := [] }
  else
    let tbl := assignOfs st.datastart (st.ent.take st.fcount)
    let headerTable := MSF_MAGIC ++ write32be st.fcount ++
      (tbl.map (fun p => entryBytes p.1)).flatten
    if st.datastart = headerTable.length then
      { out := headerTable ++ (msf_data_pass tbl).1
        ret := -1
        errors := st.errors + (msf_data_pass tbl).2
        aborted := false
        table := tbl.map Prod.fst }
    else
      { out := headerTable
        ret := -1
        errors := st.errors
        aborted := true
        table := tbl.map Prod.fst }

/-! ### `msf_unpack` -/

/-- Events observable during an unpack run, in order: a table entry being
read in the header pass, a data read (`fseek` + `fread`) for entry `i`,
and a destination file being written. -/
inductive uevent where
  | tableRead (i : Nat)
  | dataRead (i : Nat) (ofs : Nat) (len : Nat)
  | fileWrite (path : List Nat) (bytes : List Nat)
deriving DecidableEq, Inhabited, Repr

/-- Is the event a table-entry read of the header pass? -/
def isTableRead : uevent → Bool
  | uevent.tableRead _ => true
  | _ => false

/-- The first loop of `msf_unpack`: read `k` table entries sequentially
starting at stream position `pos`.  Each entry is offset, length, one
name-length byte — clamped to `MSF_MAX_NAMELEN` with a warning if larger —
then `namelen` name bytes.  Returns the entries and the number of
warnings printed. -/
def parseEntries (s : List Nat) : Nat → Nat → List msf_entry × Nat
  | 0, _ => ([], 0)
  | k + 1, pos =>
    let ofs := read32be s pos
    let len := read32be s (pos + 4)
    let namelen0 := read8 s (pos + 8)
    let warn : Nat := if namelen0 > MSF_MAX_NAMELEN then 1 else 0
    let namelen := if namelen0 > MSF_MAX_NAMELEN then MSF_MAX_NAMELEN else namelen0
    let name := (s.drop (pos + 9)).take namelen
    let rest := parseEntries s k (pos + 9 + namelen)
    ({ ofs := ofs, len := len, namelen := namelen, name := name } :: rest.1,
      warn + rest.2)

/-- Result of a `msf_unpack` run on a stream: the return value, the files
materialised under the destination directory (full path and bytes, in
order), the parsed entry table, the number of name-length warnings, and
the event trace. -/
structure unpack_result where
  ret : Int
  files : List (List Nat × List Nat)
  table : List msf_entry
  warnings : Nat
  trace : List uevent
deriving DecidableEq, Repr

/-- `msf_unpack` on stream `s` with destination directory `dir`: check the
magic (a short stream leaves the zero-initialised tail of the buffer, which
can never match), read `num_files`, read the whole table in one forward
pass, then for each entry in table order seek to `ofs`, read `len` bytes
and write them to `dir/name` (the name used as a C string, composed by
`snprintf` into the 511-byte path buffer).  Directory creation via `mkpath`
and a failing `fopen` of a destination file are side conditions no claim
here depends on; the destination is assumed writable. -/
def msf_unpack (s : List Nat) (dir : List Nat) : unpack_result :=
  if s.take 8 ++ List.replicate (8 - s.length) 0 = MSF_MAGIC then
    let num := read32be s 8
    let pe := parseEntries s num 12
    let ents := pe.1
    { ret := 0
      files := ents.map (fun e => (sn_path dir e.name, (s.drop e.ofs).take e.len))
      table := ents
      warnings := pe.2
      trace := (List.range num).map uevent.tableRead ++
        (ents.enum.map (fun q =>
          [uevent.dataRead q.1 q.2.ofs q.2.len,
           uevent.fileWrite (sn_path dir q.2.name) ((s.drop q.2.ofs).take q.2.len)])).flatten }
  else
    { ret := -1, files := [], table := [], warnings := 0, trace := [] }

/-! ### Specification-side views of the scanner -/

mutual
/-- The (relative path, content) pairs the scanner collects from one
non-hidden directory entry. -/
def scanNode (pre : List Nat) : fs_node → List (List Nat × List Nat)
  | fs_node.file nm c => [(childRel pre nm, c)]
  | fs_node.dir nm cs => scanL (childRel pre nm) cs
  | fs_node.special _ => []
  | fs_node.badDir _ => []
  | fs_node.badStat _ => []
/-- The (relative path, content) pairs the scanner collects from a child
list, skipping hidden entries. -/
def scanL (pre : List Nat) : fs_list → List (List Nat × List Nat)
  | fs_list.nil => []
  | fs_list.cons n rest =>
    (if hiddenName (nodeName n) then [] else scanNode pre n) ++ scanL pre rest
end

mutual
/-- No `opendir`/`stat` failure is reachable in this non-hidden node. -/
def cleanNode : fs_node → Bool
  | fs_node.file _ _ => true
  | fs_node.dir _ cs => cleanL cs
  | fs_node.special _ => true
  | fs_node.badDir _ => false
  | fs_node.badStat _ => false
/-- No `opendir`/`stat` failure is reachable in this child list (failures
hidden behind a `.`-named entry are never visited). -/
def cleanL : fs_list → Bool
  | fs_list.nil => true
  | fs_list.cons n rest => (hiddenName (nodeName n) || cleanNode n) && cleanL rest
end

mutual
/-- Remove every hidden child, at every depth, from a node. -/
def pruneN : fs_node → fs_node
  | fs_node.dir nm cs => fs_node.dir nm (pruneL cs)
  | n => n
/-- Remove every hidden child, at every depth, from a child list. -/
def pruneL : fs_list → fs_list
  | fs_list.nil => fs_list.nil
  | fs_list.cons n rest =>
    if hiddenName (nodeName n) then pruneL rest
    else fs_list.cons (pruneN n) (pruneL rest)
end

/-- The scanned files are representable: each relative path is at most 255
bytes of nonzero byte values, and contents are byte values. -/
def goodFiles (l : List (List Nat × List Nat)) : Bool :=
  l.all (fun p =>
    decide (p.1.length ≤ 255) &&
    p.1.all (fun b => decide (b ≠ 0) && decide (b < 256)) &&
    p.2.all (fun b => decide (b < 256)))

/-! ### Concrete trees used as test inputs -/

/-- A root directory holding the single one-byte file `a`. -/
def oneFileTree : fs_node :=
  fs_node.dir [114] (fs_list.cons (fs_node.file [97] [5]) fs_list.nil)

/-- A root directory holding the hidden file `.h` and the file `v`. -/
def hiddenTree : fs_node :=
  fs_node.dir [114] (fs_list.cons (fs_node.file [46, 104] [1])
    (fs_list.cons (fs_node.file [118] [2]) fs_list.nil))

/-- A root directory holding a file whose name is 300 `a` characters. -/
def longNameTree : fs_node :=
  fs_node.dir [114]
    (fs_list.cons (fs_node.file (List.replicate 300 97) [5]) fs_list.nil)

/-- A root directory holding a subdirectory `b` on which `opendir` fails,
followed by the file `z`. -/
def badSubdirTree : fs_node :=
  fs_node.dir [114] (fs_list.cons (fs_node.badDir [98])
    (fs_list.cons (fs_node.file [122] [7]) fs_list.nil))

/-- The scenario of spec §8: `readme.txt` ("hello world", 11 bytes) and
`sub/data.bin` (3 bytes). -/
def scenarioTree : fs_node :=
  fs_node.dir [114] (fs_list.cons
    (fs_node.file [114, 101, 97, 100, 109, 101, 46, 116, 120, 116]
      [104, 101, 108, 108, 111, 32, 119, 111, 114, 108, 100])
    (fs_list.cons
      (fs_node.dir [115, 117, 98]
        (fs_list.cons
          (fs_node.file [100, 97, 116, 97, 46, 98, 105, 110] [1, 2, 3])
          fs_list.nil))
      fs_list.nil))

/-! ### C4: header rejection -/

/-- If the first 8 stream bytes differ from the magic, the zero-padded
probe buffer read by `msf_unpack` differs from it too. -/
theorem magic_probe_ne (s : List Nat) (h : s.take 8 ≠ MSF_MAGIC) :
    s.take 8 ++ List.replicate (8 - s.length) 0 ≠ MSF_MAGIC := by
  intro heq
  rcases le_or_lt 8 s.length with hl | hl
  · have h0 : 8 - s.length = 0 := by omega
    rw [h0] at heq
    simp at heq
    exact h heq
  · have h1 : s.take 8 = s := List.take_of_length_le (by omega)
    rw [h1] at heq
    have h2 := congrArg (fun l => l.getD 7 0) heq
    simp only at h2
    rw [List.getD_append_right _ _ _ _ (by omega)] at h2
    have h3 : (List.replicate (8 - s.length) 0).getD (7 - s.length) 0 = 0 := by
      rcases Nat.lt_or_ge (7 - s.length) (8 - s.length) with hc | hc
      · rw [List.getD_eq_getElem _ _ (by simpa using hc)]
        simp
      · exact List.getD_eq_default _ _ (by simpa using hc)
    rw [h3] at h2
    have h4 : MSF_MAGIC.getD 7 0 = 2 := rfl
    omega

/-- C4: a stream whose first 8 bytes differ from the fixed magic is
rejected by `msf_unpack` with a format error (ret -1) and zero files
written. -/
theorem msf_unpack_rejects_bad_magic (s dir : List Nat)
    (h : s.take 8 ≠ MSF_MAGIC) :
    (msf_unpack s dir).files = [] ∧ (msf_unpack s dir).ret = -1 ∧
    (msf_unpack s dir).table = [] ∧ (msf_unpack s dir).trace = [] := by
  unfold msf_unpack
  rw [if_neg (magic_probe_ne s h)]
  exact ⟨rfl, rfl, rfl, rfl⟩

/-- Witness for C4 at the concrete stream `[9,9,9,9,9,9,9,9]`. -/
theorem msf_unpack_rejects_bad_magic_witness :
    ([9, 9, 9, 9, 9, 9, 9, 9] : List Nat).take 8 ≠ MSF_MAGIC ∧
    ((msf_unpack [9, 9, 9, 9, 9, 9, 9, 9] []).files = [] ∧
      (msf_unpack [9, 9, 9, 9, 9, 9, 9, 9] []).ret = -1 ∧
      (msf_unpack [9, 9, 9, 9, 9, 9, 9, 9] []).table = [] ∧
      (msf_unpack [9, 9, 9, 9, 9, 9, 9, 9] []).trace = []) :=
  ⟨by decide, msf_unpack_rejects_bad_magic _ _ (by decide)⟩

/-! ### C10: the name-length clamp of `msf_unpack` is dead code -/

/-- The table pass never warns, and every parsed `namelen` is a byte. -/
theorem parseEntries_wf (s : List Nat) :
    ∀ (k pos : Nat), (parseEntries s k pos).2 = 0 ∧
      ∀ e ∈ (parseEntries s k pos).1, e.namelen ≤ 255 := by
  intro k
  induction k with
  | zero =>
    intro pos
    refine ⟨rfl, ?_⟩
    intro e he
    simp [parseEntries] at he
  | succ n ih =>
    intro pos
    have hb : read8 s (pos + 8) < 256 := Nat.mod_lt _ (by norm_num)
    have hn : ¬ (read8 s (pos + 8) > MSF_MAX_NAMELEN) := by
      simp only [MSF_MAX_NAMELEN]
      omega
    constructor
    · simp only [parseEntries]
      simp only [hn, if_false]
      rw [Nat.zero_add]
      exact (ih (pos + 9 + read8 s (pos + 8))).1
    · intro e he
      simp only [parseEntries] at he
      simp only [hn, if_false] at he
      rcases List.mem_cons.mp he with he | he
      · rw [he]
        simp only [MSF_MAX_NAMELEN]
        omega
      · exact (ih (pos + 9 + read8 s (pos + 8))).2 e he

/-- C10: the on-wire `name_length` is a single byte, so after the read
every entry satisfies `namelen ≤ 255` and the `namelen > MSF_MAX_NAMELEN`
clamp-with-warning branch never fires: `msf_unpack` emits zero warnings on
every input stream. -/
theorem msf_unpack_never_clamps (s dir : List Nat) :
    (msf_unpack s dir).warnings = 0 ∧
    ∀ e ∈ (msf_unpack s dir).table, e.namelen ≤ 255 := by
  unfold msf_unpack
  by_cases hm : s.take 8 ++ List.replicate (8 - s.length) 0 = MSF_MAGIC
  · rw [if_pos hm]
    exact ⟨(parseEntries_wf s _ _).1, fun e he => (parseEntries_wf s _ _).2 e he⟩
  · rw [if_neg hm]
    refine ⟨rfl, ?_⟩
    intro e he
    simp at he

set_option maxRecDepth 100000 in
/-- Witness for C10 on a concrete valid archive holding one entry. -/
theorem msf_unpack_never_clamps_witness :
    (msf_unpack (msf_pack oneFileTree).out [100]).warnings = 0 ∧
    ((msf_unpack (msf_pack oneFileTree).out [100]).table.getD 0
      default).namelen ≤ 255 :=
  ⟨(msf_unpack_never_clamps (msf_pack oneFileTree).out [100]).1,
   (msf_unpack_never_clamps (msf_pack oneFileTree).out [100]).2 _ (by decide)⟩

/-! ### C2: `msf_pack` never reports success -/

/-- C2 (code bug): on a pack run that finds one file and performs every
read and write without any error (zero stderr lines, assert passed, a
complete 23-byte archive emitted), `msf_pack` still returns -1 — the C
function initialises `ret = -1` and no code path ever sets it to 0, so a
fully successful pack is reported to `main` as a failure. -/
theorem msf_pack_reports_failure_on_success :
    (msf_pack oneFileTree).errors = 0 ∧
    (msf_pack oneFileTree).aborted = false ∧
    (msf_pack oneFileTree).out.length = 23 ∧
    (msf_pack oneFileTree).ret = -1 := by decide

/-! ### C5: silent `uint8_t` wrap of the computed name length in `msf_walk` -/

set_option maxRecDepth 100000 in
/-- C5 (code bug): a file whose relative path is 300 bytes long gets
`namelen = 300 mod 256 = 44` stored by `msf_walk` — a silent `uint8_t`
overflow with a truncated name and no scan-time diagnostic (the walk
prints zero error lines), instead of the rejection or
clamp-with-diagnostic the spec requires.  The corrupt entry then makes
the data pass's `fopen` of the truncated name fail: the packed output is
the 65-byte header-plus-table with no data, and the single error line of
the whole run is the data pass's unrelated `could not read`, not a
name-length diagnostic. -/
theorem msf_walk_namelen_silent_wrap :
    ((msf_pack longNameTree).table.getD 0 default).namelen = 44 ∧
    ((msf_pack longNameTree).table.getD 0 default).name =
      List.replicate 44 97 ∧
    (msf_walk_root longNameTree
      { ent := [], fcount := 0, datastart := 12, errors := 0 }).errors = 0 ∧
    (msf_pack longNameTree).errors = 1 ∧
    (msf_pack longNameTree).out.length = 65 ∧
    (msf_pack longNameTree).table.length = 1 := by decide

/-! ### C6: a failed subdirectory does not abort the scan -/

/-- C6 (code bug): when `opendir` fails on the subdirectory `b` of the
root, `msf_walk` prints one error line and zeroes the running file count —
but the enclosing loop continues, picks up the sibling file `z`, and
`msf_pack` then writes a complete 23-byte archive (header, table and data)
despite the scan failure, instead of failing with no bytes emitted. -/
theorem msf_pack_subdir_error_still_writes :
    (msf_pack badSubdirTree).errors = 1 ∧
    (msf_pack badSubdirTree).out.length = 23 ∧
    (msf_pack badSubdirTree).aborted = false ∧
    (msf_pack badSubdirTree).table.length = 1 := by decide

/-! ### C8: hidden entries are skipped at every depth -/

mutual
/-- Removing hidden children does not change what `msf_walk` does to one
directory entry. -/
theorem msf_walk_node_prune (pre : List Nat) (st : walk_state) :
    ∀ n : fs_node, msf_walk_node pre st (pruneN n) = msf_walk_node pre st n
  | fs_node.file nm c => rfl
  | fs_node.dir nm cs => by
    show (msf_walk_list (childRel pre nm) st (pruneL cs), false) =
      (msf_walk_list (childRel pre nm) st cs, false)
    rw [msf_walk_list_prune (childRel pre nm) st cs]
  | fs_node.special nm => rfl
  | fs_node.badDir nm => rfl
  | fs_node.badStat nm => rfl
/-- Removing hidden children does not change the result of the `msf_walk`
`readdir` loop. -/
theorem msf_walk_list_prune (pre : List Nat) (st : walk_state) :
    ∀ l : fs_list, msf_walk_list pre st (pruneL l) = msf_walk_list pre st l
  | fs_list.nil => rfl
  | fs_list.cons n rest => by
    by_cases hn : hiddenName (nodeName n) = true
    · have h1 : pruneL (fs_list.cons n rest) = pruneL rest := by
        simp [pruneL, hn]
      have h2 : msf_walk_list pre st (fs_list.cons n rest) =
          msf_walk_list pre st rest := by
        simp [msf_walk_list, hn]
      rw [h1, msf_walk_list_prune pre st rest, h2]
    · have hn' : hiddenName (nodeName n) = false := by
        simpa using hn
      have hname : nodeName (pruneN n) = nodeName n := by
        cases n <;> rfl
      have h1 : pruneL (fs_list.cons n rest) =
          fs_list.cons (pruneN n) (pruneL rest) := by
        simp [pruneL, hn']
      rw [h1]
      simp only [msf_walk_list, hname, hn', Bool.false_eq_true, if_false]
      rw [msf_walk_node_prune pre st n]
      rcases hw : msf_walk_node pre st n with ⟨st2, b⟩
      cases b
      · exact msf_walk_list_prune pre st2 rest
      · rfl
end

/-- C8: every directory entry whose name begins with `.` is skipped at
every depth — neither recursed into nor added to the table — so packing a
tree is identical (same archive bytes, same table, same diagnostics) to
packing the tree with all hidden entries erased; in particular the archive
contains zero entries referencing any of them. -/
theorem msf_pack_skips_hidden (root : fs_node) :
    msf_pack (pruneN root) = msf_pack root := by
  have h : msf_walk_root (pruneN root)
        { ent := [], fcount := 0, datastart := 12, errors := 0 } =
      msf_walk_root root
        { ent := [], fcount := 0, datastart := 12, errors := 0 } := by
    cases root with
    | dir nm cs =>
      show msf_walk_list [] _ (pruneL cs) = msf_walk_list [] _ cs
      exact msf_walk_list_prune _ _ cs
    | file nm c => rfl
    | special nm => rfl
    | badDir nm => rfl
    | badStat nm => rfl
  unfold msf_pack
  rw [h]

/-! ### C9: the success criterion of `mkpath` -/

/-- A successful `mkdir` call prepends exactly the new directory. -/
theorem mkdirM_some {fs : List (List Nat)} {p : List Nat}
    {fs2 : List (List Nat)} (h : mkdirM fs p = some fs2) : fs2 = p :: fs := by
  unfold mkdirM at h
  split at h
  · cases h
  · split at h
    · cases h
    · split at h
      · exact (Option.some.injEq _ _ ▸ h).symm
      · cases h

/-- `mkdir` fails on a path that already exists. -/
theorem mkdirM_mem {fs : List (List Nat)} {p : List Nat} (h : p ∈ fs) :
    mkdirM fs p = none := by
  simp [mkdirM, h]

/-- Either the whole `mkpath` loop leaves the state untouched, or some
`mkdir` succeeded: then the return value is 0 and the directory set has
strictly grown. -/
theorem mkpath_go_cases :
    ∀ (l : List (List Nat)) (st : mkpath_result),
      List.foldl mkpath_step st l = st ∨
      ((List.foldl mkpath_step st l).ret = 0 ∧
        st.fs.length < (List.foldl mkpath_step st l).fs.length) := by
  intro l
  induction l with
  | nil => intro st; exact Or.inl rfl
  | cons p l ih =>
    intro st
    rw [List.foldl_cons]
    rcases hmk : mkdirM st.fs p with _ | fs3
    · have hid : mkpath_step st p = st := by
        simp only [mkpath_step, hmk]
      rw [hid]
      exact ih st
    · have hstep2 : mkpath_step st p = { ret := 0, fs := p :: st.fs } := by
        simp only [mkpath_step, hmk, mkdirM_some hmk]
      rw [hstep2]
      rcases ih { ret := 0, fs := p :: st.fs } with h | h
      · right
        rw [h]
        exact ⟨rfl, by simp⟩
      · right
        refine ⟨h.1, ?_⟩
        have := h.2
        simp at this
        omega

/-- If every prefix to be created already exists, the whole `mkpath` loop
is the identity. -/
theorem mkpath_go_all_mem :
    ∀ (l : List (List Nat)) (st : mkpath_result),
      (∀ q ∈ l, q ∈ st.fs) → List.foldl mkpath_step st l = st := by
  intro l
  induction l with
  | nil => intro st _; rfl
  | cons p l ih =>
    intro st hall
    rw [List.foldl_cons]
    have hid : mkpath_step st p = st := by
      unfold mkpath_step
      rw [mkdirM_mem (hall p (by simp))]
    rw [hid]
    exact ih st (fun q hq => hall q (by simp [hq]))

/-- C9 (amended): `mkpath` returns success iff at least one `mkdir` call
along the path actually succeeded, i.e. iff the call created at least one
new directory level; in particular, when every prefix it would create
already exists, every `mkdir` fails with `EEXIST` and `mkpath` returns -1
(unpack ignores this return value). -/
theorem mkpath_success_iff_created (fs0 : List (List Nat)) (path : List Nat) :
    ((mkpath fs0 path).ret = 0 ↔ (mkpath fs0 path).fs ≠ fs0) ∧
    ((∀ q ∈ sepCuts path, q ∈ fs0) → (mkpath fs0 path).ret = -1) := by
  have hm : mkpath fs0 path =
      List.foldl mkpath_step { ret := -1, fs := fs0 } (sepCuts path) := rfl
  constructor
  · rw [hm]
    rcases mkpath_go_cases (sepCuts path) { ret := -1, fs := fs0 } with h | h
    · rw [h]
      constructor
      · intro h0
        have hz : (-1 : Int) = 0 := h0
        exact absurd hz (by decide)
      · intro hne
        exact absurd rfl hne
    · constructor
      · intro _ heq
        have h2 := h.2
        rw [heq] at h2
        exact absurd h2 (lt_irrefl _)
      · intro _
        exact h.1
  · intro hall
    rw [hm, mkpath_go_all_mem _ _ hall]

/-- C9 counterexample: on the path `a/b/c.t` with directories `a` and
`a/b` both already present, every directory component along the path
already exists, yet `mkpath` returns -1, not success — `mkdir` fails with
`EEXIST` on an existing directory, and only a successful `mkdir` ever sets
`ret = 0`. -/
theorem mkpath_all_exist_cex :
    (∀ q ∈ sepCuts [97, 47, 98, 47, 99, 46, 116], q ∈ [[97], [97, 47, 98]]) ∧
    (mkpath [[97], [97, 47, 98]] [97, 47, 98, 47, 99, 46, 116]).ret ≠ 0 := by
  decide

/-- Witness for C9 at concrete states: with only `a` existing, creating
`a/b` along `a/b/c.t` yields success; with `a` and `a/b` both existing,
the run returns -1. -/
theorem mkpath_success_iff_created_witness :
    (mkpath [[97]] [97, 47, 98, 47, 99, 46, 116]).ret = 0 ∧
    (mkpath [[97], [97, 47, 98]] [97, 47, 98, 47, 99, 46, 116]).ret = -1 :=
  ⟨(mkpath_success_iff_created [[97]] [97, 47, 98, 47, 99, 46, 116]).1.mpr
      (by decide),
   (mkpath_success_iff_created [[97], [97, 47, 98]]
      [97, 47, 98, 47, 99, 46, 116]).2 (by decide)⟩

/-! ### C7: the table is read in full before any data is touched -/

/-- C7: in every `msf_unpack` run, every table-entry read of the header
pass happens strictly before every data read and every destination-file
write: if trace position `i` holds a table read and position `j` holds any
other event, then `i < j`.  The parse loop and the extraction loop of the
C code are two separate sequential passes. -/
theorem msf_unpack_table_before_data (s dir : List Nat) (i j : Nat)
    (hi : i < (msf_unpack s dir).trace.length)
    (hj : j < (msf_unpack s dir).trace.length)
    (ht : isTableRead ((msf_unpack s dir).trace.getD i default) = true)
    (hd : isTableRead ((msf_unpack s dir).trace.getD j default) = false) :
    i < j := by
  by_cases hm : s.take 8 ++ List.replicate (8 - s.length) 0 = MSF_MAGIC
  case neg =>
    exfalso
    have hz : (msf_unpack s dir).trace = [] := by
      unfold msf_unpack
      rw [if_neg hm]
    rw [hz] at hi
    simp at hi
  case pos =>
    have htr : (msf_unpack s dir).trace =
        (List.range (read32be s 8)).map uevent.tableRead ++
        ((parseEntries s (read32be s 8) 12).1.enum.map (fun q =>
          [uevent.dataRead q.1 q.2.ofs q.2.len,
           uevent.fileWrite (sn_path dir q.2.name)
             ((s.drop q.2.ofs).take q.2.len)])).flatten := by
      unfold msf_unpack
      rw [if_pos hm]
    rw [htr] at hi hj ht hd
    set P1 := (List.range (read32be s 8)).map uevent.tableRead with hP1
    set P2 := ((parseEntries s (read32be s 8) 12).1.enum.map (fun q =>
      [uevent.dataRead q.1 q.2.ofs q.2.len,
       uevent.fileWrite (sn_path dir q.2.name)
         ((s.drop q.2.ofs).take q.2.len)])).flatten with hP2
    have f1 : ∀ e ∈ P1, isTableRead e = true := by
      intro e he
      rw [hP1] at he
      rcases List.mem_map.mp he with ⟨k, _, rfl⟩
      rfl
    have f2 : ∀ e ∈ P2, isTableRead e = false := by
      intro e he
      rw [hP2] at he
      rcases List.mem_flatten.mp he with ⟨l2, hl2, hel⟩
      rcases List.mem_map.mp hl2 with ⟨q, _, rfl⟩
      simp only [List.mem_cons, List.not_mem_nil, or_false] at hel
      rcases hel with h | h
      · rw [h]; rfl
      · rw [h]; rfl
    have hip : i < P1.length := by
      by_contra hge
      push_neg at hge
      have he : (P1 ++ P2).getD i default = P2.getD (i - P1.length) default :=
        List.getD_append_right _ _ _ _ hge
      have hlt : i - P1.length < P2.length := by
        rw [List.length_append] at hi
        omega
      have hmem : P2.getD (i - P1.length) default ∈ P2 := by
        rw [List.getD_eq_getElem _ _ hlt]
        exact List.getElem_mem _
      rw [he, f2 _ hmem] at ht
      cases ht
    have hjp : P1.length ≤ j := by
      by_contra hlt
      push_neg at hlt
      have he : (P1 ++ P2).getD j default = P1.getD j default :=
        List.getD_append _ _ _ _ hlt
      have hmem : P1.getD j default ∈ P1 := by
        rw [List.getD_eq_getElem _ _ hlt]
        exact List.getElem_mem _
      rw [he, f1 _ hmem] at hd
      cases hd
    omega

set_option maxRecDepth 100000 in
/-- Witness for C7 on a concrete archive with one entry: trace position 0
is the table read, position 1 is the data read. -/
theorem msf_unpack_table_before_data_witness :
    0 < (msf_unpack (msf_pack oneFileTree).out [100]).trace.length ∧
    1 < (msf_unpack (msf_pack oneFileTree).out [100]).trace.length ∧
    isTableRead
      ((msf_unpack (msf_pack oneFileTree).out [100]).trace.getD 0 default) = true ∧
    isTableRead
      ((msf_unpack (msf_pack oneFileTree).out [100]).trace.getD 1 default) = false ∧
    (0 : Nat) < 1 :=
  ⟨by decide, by decide, by decide, by decide,
    msf_unpack_table_before_data (msf_pack oneFileTree).out [100] 0 1
      (by decide) (by decide) (by decide) (by decide)⟩

/-! ### Characterisation of a clean scan -/

/-- The table entry (plus carried path and file bytes) built for one
scanned file. -/
def entryOf (p : List Nat × List Nat) : msf_entry × List Nat × List Nat :=
  (mkEntry p.1 p.2, p.1, p.2)

/-- The number of table bytes one scanned file occupies:
`sizeof(uint32_t) * 2 + 1 + namelen`. -/
def tbytes (p : List Nat × List Nat) : Nat := 9 + p.1.length % 256

mutual
/-- On a clean node, `msf_walk_node` appends exactly the entries of the
files `scanNode` lists, in order, and never signals an abort. -/
theorem msf_walk_node_char (pre : List Nat) (st : walk_state) :
    ∀ n : fs_node, cleanNode n = true →
    st.fcount = st.ent.length →
    st.datastart < U32 →
    st.ent.length + (scanNode pre n).length < U32 →
    msf_walk_node pre st n =
      ({ ent := st.ent ++ (scanNode pre n).map entryOf
         fcount := st.fcount + (scanNode pre n).length
         datastart := (st.datastart + ((scanNode pre n).map tbytes).sum) % U32
         errors := st.errors }, false)
  | fs_node.file nm c => by
    intro _ hfc hds hbound
    show (addFile st (childRel pre nm) c, false) = _
    unfold addFile
    have htake : st.ent.take st.fcount = st.ent := by
      rw [hfc]
      exact List.take_length _
    have hfc1 : (st.fcount + 1) % U32 = st.fcount + 1 := by
      apply Nat.mod_eq_of_lt
      rw [hfc]
      simpa [scanNode] using hbound
    simp [htake, hfc1, scanNode, entryOf, tbytes, mkEntry]
  | fs_node.dir nm cs => by
    intro hclean hfc hds hbound
    show (msf_walk_list (childRel pre nm) st cs, false) = _
    have hc : cleanL cs = true := hclean
    rw [msf_walk_list_char (childRel pre nm) st cs hc hfc hds
      (by simpa [scanNode] using hbound)]
    simp [scanNode]
  | fs_node.special nm => by
    intro _ hfc hds hbound
    show (st, false) = _
    simp [scanNode, Nat.mod_eq_of_lt hds]
  | fs_node.badDir nm => by
    intro hclean _ _ _
    cases hclean
  | fs_node.badStat nm => by
    intro hclean _ _ _
    cases hclean
/-- On a clean child list, the `msf_walk` loop appends exactly the entries
of the files `scanL` lists, in order. -/
theorem msf_walk_list_char (pre : List Nat) (st : walk_state) :
    ∀ l : fs_list, cleanL l = true →
    st.fcount = st.ent.length →
    st.datastart < U32 →
    st.ent.length + (scanL pre l).length < U32 →
    msf_walk_list pre st l =
      { ent := st.ent ++ (scanL pre l).map entryOf
        fcount := st.fcount + (scanL pre l).length
        datastart := (st.datastart + ((scanL pre l).map tbytes).sum) % U32
        errors := st.errors }
  | fs_list.nil => by
    intro _ hfc hds hbound
    show st = _
    simp [scanL, Nat.mod_eq_of_lt hds]
  | fs_list.cons n rest => by
    intro hclean hfc hds hbound
    have hcl : (hiddenName (nodeName n) || cleanNode n) = true ∧
        cleanL rest = true := by
      simpa [cleanL, Bool.and_eq_true] using hclean
    by_cases hn : hiddenName (nodeName n) = true
    · have hw : msf_walk_list pre st (fs_list.cons n rest) =
          msf_walk_list pre st rest := by
        simp [msf_walk_list, hn]
      have hs : scanL pre (fs_list.cons n rest) = scanL pre rest := by
        simp [scanL, hn]
      have hbound2 : st.ent.length + (scanL pre rest).length < U32 := by
        rw [hs] at hbound
        exact hbound
      rw [hw, msf_walk_list_char pre st rest hcl.2 hfc hds hbound2, hs]
    · have hn' : hiddenName (nodeName n) = false := by simpa using hn
      have hcn : cleanNode n = true := by
        rcases hcl.1 with h
        rw [hn'] at h
        simpa using h
      have hs : scanL pre (fs_list.cons n rest) =
          scanNode pre n ++ scanL pre rest := by
        simp [scanL, hn']
      have hboundn : st.ent.length + (scanNode pre n).length < U32 := by
        rw [hs] at hbound
        simp at hbound
        omega
      have hnode := msf_walk_node_char pre st n hcn hfc hds hboundn
      have hw : msf_walk_list pre st (fs_list.cons n rest) =
          msf_walk_list pre
            { ent := st.ent ++ (scanNode pre n).map entryOf
              fcount := st.fcount + (scanNode pre n).length
              datastart := (st.datastart + ((scanNode pre n).map tbytes).sum) % U32
              errors := st.errors } rest := by
        simp only [msf_walk_list, hn', Bool.false_eq_true, if_false]
        rw [hnode]
      rw [hw]
      rw [msf_walk_list_char pre _ rest hcl.2
        (by simp [hfc])
        (Nat.mod_lt _ (by norm_num [U32]))
        (by
          rw [hs] at hbound
          simp at hbound ⊢
          omega)]
      rw [hs]
      congr 1
      · simp [List.append_assoc]
      · simp
        omega
      · simp [Nat.mod_add_mod, Nat.add_assoc]
end

/-! ### C3: offsets of a freshly packed archive -/

/-- Offset assignment keeps the table length. -/
theorem assignOfs_length (cur : Nat) (l : List (msf_entry × List Nat × List Nat)) :
    (assignOfs cur l).length = l.length := by
  induction l generalizing cur with
  | nil => rfl
  | cons p rest ih =>
    rcases p with ⟨e, c⟩
    simp [assignOfs, ih]

/-- The first assigned entry receives exactly the running cursor. -/
theorem assignOfs_head_ofs (cur : Nat) (l : List (msf_entry × List Nat × List Nat))
    (h : 0 < l.length) :
    (((assignOfs cur l).map Prod.fst).getD 0 default).ofs = cur := by
  rcases l with _ | ⟨⟨e, c⟩, rest⟩
  · simp at h
  · rfl

/-- Each further entry receives the previous offset plus the previous
length, reduced `mod 2^32`. -/
theorem assignOfs_consecutive (l : List (msf_entry × List Nat × List Nat)) :
    ∀ (cur i : Nat), i + 1 < l.length →
    (((assignOfs cur l).map Prod.fst).getD (i + 1) default).ofs =
      ((((assignOfs cur l).map Prod.fst).getD i default).ofs +
        (((assignOfs cur l).map Prod.fst).getD i default).len) % U32 := by
  induction l with
  | nil =>
    intro cur i h
    simp at h
  | cons p rest ih =>
    rcases p with ⟨e, c⟩
    intro cur i h
    match i with
    | 0 =>
      have h0 : 0 < rest.length := by
        simp at h
        omega
      show (((assignOfs ((cur + e.len) % U32) rest).map Prod.fst).getD 0 default).ofs = _
      rw [assignOfs_head_ofs _ rest h0]
      rfl
    | Nat.succ k =>
      have hk : k + 1 < rest.length := by
        simp at h
        omega
      show (((assignOfs ((cur + e.len) % U32) rest).map Prod.fst).getD (k + 1) default).ofs = _
      rw [ih ((cur + e.len) % U32) k hk]
      rfl

/-- Offset assignment does not change the per-entry table byte counts. -/
theorem assignOfs_map_namelen (cur : Nat) (l : List (msf_entry × List Nat × List Nat)) :
    ((assignOfs cur l).map Prod.fst).map (fun e => 9 + e.namelen) =
      (l.map Prod.fst).map (fun e => 9 + e.namelen) := by
  induction l generalizing cur with
  | nil => rfl
  | cons p rest ih =>
    rcases p with ⟨e, c⟩
    simp [assignOfs, ih]

/-- The scan result of `msf_pack` on a clean root, in closed form. -/
theorem msf_pack_walk_char (nm : List Nat) (cs : fs_list)
    (hclean : cleanL cs = true)
    (hcount : (scanL [] cs).length < U32) :
    msf_walk_root (fs_node.dir nm cs)
        { ent := [], fcount := 0, datastart := 12, errors := 0 } =
      { ent := (scanL [] cs).map entryOf
        fcount := (scanL [] cs).length
        datastart := (12 + ((scanL [] cs).map tbytes).sum) % U32
        errors := 0 } := by
  show msf_walk_list [] _ cs = _
  rw [msf_walk_list_char [] _ cs hclean rfl (by norm_num [U32])
    (by simpa using hcount)]
  simp

/-- The final table of `msf_pack` on a clean root, in closed form. -/
theorem msf_pack_table_char (nm : List Nat) (cs : fs_list)
    (hclean : cleanL cs = true)
    (hcount : (scanL [] cs).length < U32) :
    (msf_pack (fs_node.dir nm cs)).table =
      (assignOfs ((12 + ((scanL [] cs).map tbytes).sum) % U32)
        ((scanL [] cs).map entryOf)).map Prod.fst := by
  simp only [msf_pack]
  rw [msf_pack_walk_char nm cs hclean hcount]
  by_cases hempty : (scanL [] cs).length = 0
  · have hnil : scanL [] cs = [] := List.length_eq_zero.mp hempty
    simp [hnil, assignOfs]
  · have htake : ((scanL [] cs).map entryOf).take (scanL [] cs).length =
        (scanL [] cs).map entryOf := by
      conv_lhs => rw [← List.length_map (scanL [] cs) entryOf]
      exact List.take_length _
    simp only [hempty, if_false, htake]
    split <;> rfl

/-- C3 (amended): on a freshly packed archive produced by a clean scan
(no directory-open or stat errors) that found fewer than `2^32` files, the
first entry's offset is `header size + Σ (8 + 1 + name_length_i)` reduced
`mod 2^32`, and `entry[i+1].offset = (entry[i].offset + entry[i].length)
mod 2^32` for every `i` — exactly the `uint32_t` arithmetic the C code
performs; the unreduced equalities hold whenever the sums stay below
`2^32`. -/
theorem msf_pack_offsets_mod (nm : List Nat) (cs : fs_list)
    (hclean : cleanL cs = true)
    (hcount : (scanL [] cs).length < U32) :
    (0 < (msf_pack (fs_node.dir nm cs)).table.length →
      ((msf_pack (fs_node.dir nm cs)).table.getD 0 default).ofs =
        (12 + ((msf_pack (fs_node.dir nm cs)).table.map
          (fun e => 9 + e.namelen)).sum) % U32) ∧
    (∀ i, i + 1 < (msf_pack (fs_node.dir nm cs)).table.length →
      ((msf_pack (fs_node.dir nm cs)).table.getD (i + 1) default).ofs =
        (((msf_pack (fs_node.dir nm cs)).table.getD i default).ofs +
          ((msf_pack (fs_node.dir nm cs)).table.getD i default).len) % U32) := by
  have htbl := msf_pack_table_char nm cs hclean hcount
  constructor
  · intro hpos
    rw [htbl] at hpos ⊢
    have hsum : (((assignOfs ((12 + ((scanL [] cs).map tbytes).sum) % U32)
          ((scanL [] cs).map entryOf)).map Prod.fst).map
            (fun e => 9 + e.namelen)).sum =
        ((scanL [] cs).map tbytes).sum := by
      rw [assignOfs_map_namelen]
      congr 1
      rw [List.map_map, List.map_map]
      apply List.map_congr_left
      intro p _
      simp [entryOf, mkEntry, tbytes]
    rw [assignOfs_head_ofs]
    · rw [hsum]
    · have hlen : 0 < ((scanL [] cs).map entryOf).length := by
        rw [List.length_map, assignOfs_length, List.length_map] at hpos
        simpa using hpos
      exact hlen
  · intro i hi
    rw [htbl] at hi ⊢
    apply assignOfs_consecutive
    rw [List.length_map, assignOfs_length] at hi
    exact hi

/-- A root with a file of `2^32 - 1` bytes named `a` followed by a
one-byte file named `b`. -/
def hugeTree : fs_node :=
  fs_node.dir [114] (fs_list.cons
    (fs_node.file [97] (List.replicate 4294967295 0))
    (fs_list.cons (fs_node.file [98] [1]) fs_list.nil))

/-- The table of a root holding files `a` (arbitrary content `c1`) and `b`
(one byte), in closed form. -/
theorem twoFileTable (c1 : List Nat) :
    (msf_pack (fs_node.dir [114] (fs_list.cons (fs_node.file [97] c1)
      (fs_list.cons (fs_node.file [98] [1]) fs_list.nil)))).table =
    [{ ofs := 32, len := c1.length % U32, namelen := 1, name := [97] },
     { ofs := (32 + c1.length % U32) % U32, len := 1, namelen := 1,
       name := [98] }] := by
  have hfs : scanL [] (fs_list.cons (fs_node.file [97] c1)
      (fs_list.cons (fs_node.file [98] [1]) fs_list.nil)) =
      [([97], c1), ([98], [1])] := rfl
  have hclean : cleanL (fs_list.cons (fs_node.file [97] c1)
      (fs_list.cons (fs_node.file [98] [1]) fs_list.nil)) = true := rfl
  rw [msf_pack_table_char [114] _ hclean (by rw [hfs]; norm_num [U32])]
  rw [hfs]
  have hD : (12 + (([([97], c1), ([98], [1])]).map tbytes).sum) % U32 = 32 := by
    norm_num [tbytes, U32]
  rw [hD]
  have hm1 : mkEntry [97] c1 =
      { ofs := 0, len := c1.length % U32, namelen := 1, name := [97] } := rfl
  have hm2 : mkEntry [98] [1] =
      { ofs := 0, len := [1].length % U32, namelen := 1, name := [98] } := rfl
  have hl1 : ([1] : List Nat).length % U32 = 1 := rfl
  simp only [List.map_cons, List.map_nil, entryOf, assignOfs, hm1, hm2, hl1]

/-- C3 counterexample: with a first file of `2^32 - 1` bytes, the second
entry's stored offset is `(32 + (2^32 - 1)) mod 2^32 = 31`, not the
unreduced sum `entry[0].offset + entry[0].length` the claim states — the
`uint32_t` offset cursor wraps. -/
theorem msf_pack_offsets_cex :
    ((msf_pack hugeTree).table.getD 1 default).ofs ≠
      ((msf_pack hugeTree).table.getD 0 default).ofs +
        ((msf_pack hugeTree).table.getD 0 default).len := by
  have htbl2 := twoFileTable (List.replicate 4294967295 0)
  simp only [List.length_replicate] at htbl2
  rw [show msf_pack hugeTree = msf_pack (fs_node.dir [114]
    (fs_list.cons (fs_node.file [97] (List.replicate 4294967295 0))
      (fs_list.cons (fs_node.file [98] [1]) fs_list.nil))) from rfl, htbl2]
  decide

set_option maxRecDepth 100000 in
/-- Witness for C3 on the two-file scenario tree: the first entry's offset
is the header-plus-table size and the second is offset plus length of the
first, modulo `2^32`. -/
theorem msf_pack_offsets_mod_witness :
    ((msf_pack scenarioTree).table.getD 0 default).ofs =
      (12 + ((msf_pack scenarioTree).table.map
        (fun e => 9 + e.namelen)).sum) % U32 ∧
    ((msf_pack scenarioTree).table.getD 1 default).ofs =
      (((msf_pack scenarioTree).table.getD 0 default).ofs +
        ((msf_pack scenarioTree).table.getD 0 default).len) % U32 :=
  ⟨(msf_pack_offsets_mod [114] _ (by decide) (by decide)).1 (by decide),
   (msf_pack_offsets_mod [114] _ (by decide) (by decide)).2 0 (by decide)⟩

/-! ### Wire-format reading lemmas -/

/-- Reading one byte past a known prefix reads from the suffix. -/
theorem getD_concat (H t : List Nat) (i : Nat) :
    (H ++ t).getD (H.length + i) 0 = t.getD i 0 := by
  rw [List.getD_append_right _ _ _ _ (Nat.le_add_right _ _)]
  congr 1
  omega

/-- `read8` past a known prefix. -/
theorem read8_concat (H t : List Nat) (i : Nat) :
    read8 (H ++ t) (H.length + i) = read8 t i := by
  unfold read8
  rw [getD_concat]

/-- `read32be` past a known prefix. -/
theorem read32_concat (H t : List Nat) (i : Nat) :
    read32be (H ++ t) (H.length + i) = read32be t i := by
  unfold read32be
  rw [show H.length + i + 1 = H.length + (i + 1) from by omega,
    show H.length + i + 2 = H.length + (i + 2) from by omega,
    show H.length + i + 3 = H.length + (i + 3) from by omega,
    read8_concat, read8_concat, read8_concat, read8_concat]

/-- A big-endian 32-bit write is read back exactly (values below `2^32`). -/
theorem read32be_front (v : Nat) (t : List Nat) (h : v < U32) :
    read32be (write32be v ++ t) 0 = v := by
  show v / 16777216 % 256 % 256 * 16777216 + v / 65536 % 256 % 256 * 65536 +
    v / 256 % 256 % 256 * 256 + v % 256 % 256 = v
  unfold U32 at h
  omega

/-- A big-endian 32-bit field after a known prefix is read back exactly. -/
theorem read32_at (H t : List Nat) (v : Nat) (h : v < U32) :
    read32be (H ++ (write32be v ++ t)) H.length = v := by
  have h0 := read32_concat H (write32be v ++ t) 0
  rw [Nat.add_zero] at h0
  rw [h0, read32be_front v t h]

/-- A single byte after a known prefix is read back exactly (values that
fit one byte). -/
theorem read8_at (H t : List Nat) (v : Nat) (h : v ≤ 255) :
    read8 (H ++ (v :: t)) H.length = v := by
  have h0 := read8_concat H (v :: t) 0
  rw [Nat.add_zero] at h0
  rw [h0]
  show v % 256 = v
  omega

/-- Dropping a known prefix. -/
theorem drop_concat (H t : List Nat) : (H ++ t).drop H.length = t :=
  List.drop_left H t

/-! ### The table pass parses a packed table back verbatim -/

/-- Length of one serialised table entry. -/
theorem entryBytes_length (e : msf_entry) (h : e.name.length = e.namelen) :
    (entryBytes e).length = 9 + e.namelen := by
  simp [entryBytes, write32be, write8]
  omega

/-- A serialised table of well-formed entries parses back to exactly the
same entries, with zero warnings, wherever it sits in the stream and
whatever follows it. -/
theorem parse_entries_round (tl : List msf_entry)
    (hwf : ∀ e ∈ tl, e.ofs < U32 ∧ e.len < U32 ∧ e.namelen ≤ 255 ∧
      e.name.length = e.namelen) :
    ∀ (H D : List Nat),
    parseEntries (H ++ ((tl.map entryBytes).flatten ++ D)) tl.length H.length =
      (tl, 0) := by
  induction tl with
  | nil =>
    intro H D
    rfl
  | cons e rest ih =>
    intro H D
    obtain ⟨hofs, hlen, hnl, hname⟩ := hwf e (by simp)
    have hwfrest : ∀ e2 ∈ rest, e2.ofs < U32 ∧ e2.len < U32 ∧
        e2.namelen ≤ 255 ∧ e2.name.length = e2.namelen :=
      fun e2 he2 => hwf e2 (by simp [he2])
    -- the stream, re-associated around the first entry
    have hshape : H ++ (((e :: rest).map entryBytes).flatten ++ D) =
        H ++ (write32be e.ofs ++ (write32be e.len ++ (e.namelen :: (e.name ++
          ((rest.map entryBytes).flatten ++ D))))) := by
      simp [entryBytes, write8, List.append_assoc]
      omega
    show parseEntries _ (rest.length + 1) H.length = _
    simp only [parseEntries]
    rw [hshape]
    -- field reads
    have hr1 : read32be (H ++ (write32be e.ofs ++ (write32be e.len ++
        (e.namelen :: (e.name ++ ((rest.map entryBytes).flatten ++ D))))))
        H.length = e.ofs := read32_at _ _ _ hofs
    have hr2 : read32be (H ++ (write32be e.ofs ++ (write32be e.len ++
        (e.namelen :: (e.name ++ ((rest.map entryBytes).flatten ++ D))))))
        (H.length + 4) = e.len := by
      have := read32_at (H ++ write32be e.ofs)
        (e.namelen :: (e.name ++ ((rest.map entryBytes).flatten ++ D))) e.len hlen
      rw [List.append_assoc] at this
      rw [show H.length + 4 = (H ++ write32be e.ofs).length from by
        simp [write32be]]
      exact this
    have hr3 : read8 (H ++ (write32be e.ofs ++ (write32be e.len ++
        (e.namelen :: (e.name ++ ((rest.map entryBytes).flatten ++ D))))))
        (H.length + 8) = e.namelen := by
      have := read8_at (H ++ write32be e.ofs ++ write32be e.len)
        (e.name ++ ((rest.map entryBytes).flatten ++ D)) e.namelen hnl
      rw [List.append_assoc, List.append_assoc] at this
      rw [show H.length + 8 = (H ++ write32be e.ofs ++ write32be e.len).length
        from by simp [write32be]]
      exact this
    rw [hr1, hr2, hr3]
    have hclamp : ¬ (e.namelen > MSF_MAX_NAMELEN) := by
      simp only [MSF_MAX_NAMELEN]
      omega
    simp only [hclamp, if_false]
    -- the name bytes
    have hdrop : (H ++ (write32be e.ofs ++ (write32be e.len ++
        (e.namelen :: (e.name ++ ((rest.map entryBytes).flatten ++ D)))))).drop
        (H.length + 9) = e.name ++ ((rest.map entryBytes).flatten ++ D) := by
      have := drop_concat
        (H ++ write32be e.ofs ++ write32be e.len ++ [e.namelen])
        (e.name ++ ((rest.map entryBytes).flatten ++ D))
      rw [show H ++ write32be e.ofs ++ write32be e.len ++ [e.namelen] ++
          (e.name ++ ((rest.map entryBytes).flatten ++ D)) =
        H ++ (write32be e.ofs ++ (write32be e.len ++
          (e.namelen :: (e.name ++ ((rest.map entryBytes).flatten ++ D)))))
        from by simp [List.append_assoc]] at this
      rw [show H.length + 9 = (H ++ write32be e.ofs ++ write32be e.len ++
        [e.namelen]).length from by simp [write32be]]
      exact this
    rw [hdrop]
    have htake : (e.name ++ ((rest.map entryBytes).flatten ++ D)).take
        e.namelen = e.name := by
      rw [← hname]
      exact List.take_left _ _
    rw [htake]
    -- the recursive call sits right after this entry's bytes
    have hrec := ih hwfrest (H ++ entryBytes e) D
    have hstream : (H ++ entryBytes e) ++ ((rest.map entryBytes).flatten ++ D) =
        H ++ (write32be e.ofs ++ (write32be e.len ++
          (e.namelen :: (e.name ++ ((rest.map entryBytes).flatten ++ D))))) := by
      simp [entryBytes, write8, List.append_assoc]
      omega
    have hpos : (H ++ entryBytes e).length = H.length + 9 + e.namelen := by
      rw [List.length_append, entryBytes_length e hname]
      omega
    rw [hstream, hpos] at hrec
    rw [hrec]
    rfl

/-! ### The data pass extracts each packed file verbatim -/

/-- Offset assignment changes neither lengths nor carried contents. -/
theorem assignOfs_map_data (cur : Nat) (l : List (msf_entry × List Nat × List Nat)) :
    (assignOfs cur l).map (fun p => p.2.2.take p.1.len) =
      l.map (fun p => p.2.2.take p.1.len) := by
  induction l generalizing cur with
  | nil => rfl
  | cons p rest ih =>
    rcases p with ⟨e, c⟩
    simp [assignOfs, ih]

/-- Entries built by the scanner and then offset-assigned from a cursor
below `2^32` are well-formed on the wire. -/
theorem assign_entry_wf (fs : List (List Nat × List Nat)) :
    ∀ cur, cur < U32 →
    ∀ e ∈ (assignOfs cur (fs.map entryOf)).map Prod.fst,
      e.ofs < U32 ∧ e.len < U32 ∧ e.namelen ≤ 255 ∧
        e.name.length = e.namelen := by
  induction fs with
  | nil =>
    intro cur _ e he
    simp [assignOfs] at he
  | cons p rest ih =>
    intro cur hcur e he
    simp only [List.map_cons, entryOf, assignOfs, List.mem_cons] at he
    rcases he with he | he
    · rw [he]
      refine ⟨hcur, Nat.mod_lt _ (by norm_num [U32]), ?_, ?_⟩
      · show p.1.length % 256 ≤ 255
        omega
      · show (p.1.take (p.1.length % 256)).length = p.1.length % 256
        rw [List.length_take]
        exact Nat.min_eq_left (Nat.mod_le _ _)
    · exact ih _ (Nat.mod_lt _ (by norm_num [U32])) e he

/-- The extraction loop: seeking to each assigned offset and reading each
assigned length recovers each packed file's bytes, provided the data
region actually starts at the cursor and everything fits in `2^32`. -/
theorem assign_files (pairs : List (msf_entry × List Nat × List Nat)) :
    ∀ (pre s dir : List Nat),
    (∀ p ∈ pairs, p.1.len = p.2.2.length) →
    s = pre ++ (pairs.map (fun p => p.2.2)).flatten →
    pre.length + ((pairs.map (fun p => p.2.2.length)).sum) < U32 →
    ((assignOfs pre.length pairs).map Prod.fst).map
        (fun e => (sn_path dir e.name, (s.drop e.ofs).take e.len)) =
      pairs.map (fun p => (sn_path dir p.1.name, p.2.2)) := by
  induction pairs with
  | nil =>
    intro pre s dir _ _ _
    rfl
  | cons q rest ih =>
    rcases q with ⟨e, rel, c⟩
    intro pre s dir hlen hs hbound
    have he : e.len = c.length := hlen (e, rel, c) (by simp)
    simp only [assignOfs, List.map_cons]
    have hhead : (s.drop pre.length).take e.len = c := by
      rw [hs]
      have hflat : ((((e, rel, c) :: rest).map (fun p => p.2.2)).flatten) =
          c ++ (rest.map (fun p => p.2.2)).flatten := by
        simp
      rw [hflat, List.drop_left, he]
      exact List.take_left _ _
    have hsum : ((((e, rel, c) :: rest).map (fun p => p.2.2.length)).sum) =
        c.length + ((rest.map (fun p => p.2.2.length)).sum) := by
      simp
    rw [hsum] at hbound
    have hmod : (pre.length + e.len) % U32 = (pre ++ c).length := by
      rw [Nat.mod_eq_of_lt (by rw [he]; omega)]
      simp [he]
    have hrest := ih (pre ++ c) s dir
      (fun p hp => hlen p (by simp [hp]))
      (by
        rw [hs]
        simp [List.append_assoc])
      (by
        simp only [List.length_append]
        omega)
    show (sn_path dir e.name, (s.drop pre.length).take e.len) ::
        ((assignOfs ((pre.length + e.len) % U32) rest).map Prod.fst).map
          (fun e => (sn_path dir e.name, (s.drop e.ofs).take e.len)) =
      (sn_path dir e.name, c) ::
        rest.map (fun p => (sn_path dir p.1.name, p.2.2))
    rw [hhead, hmod, hrest]

/-- A list each of whose bytes is nonzero survives the C-string read. -/
theorem cstr_eq_self (l : List Nat) (h : ∀ b ∈ l, b ≠ 0) : cstr l = l := by
  induction l with
  | nil => rfl
  | cons b t ih =>
    have hb : b ≠ 0 := h b (by simp)
    have hbne : (b != 0) = true := by simpa using hb
    simp only [cstr, List.takeWhile]
    rw [hbne]
    simp only [cstr] at ih
    rw [ih (fun x hx => h x (by simp [hx]))]

/-- When every stored name still equals its file's relative path, every
`fopen` of the data pass succeeds and the pass emits each file's bytes in
table order with no error. -/
theorem msf_data_pass_ok (l : List (msf_entry × List Nat × List Nat))
    (h : ∀ p ∈ l, cstr p.1.name = p.2.1) :
    msf_data_pass l = ((l.map (fun p => p.2.2.take p.1.len)).flatten, 0) := by
  induction l with
  | nil => rfl
  | cons q rest ih =>
    rcases q with ⟨e, rel, c⟩
    have hq : cstr e.name = rel := h (e, rel, c) (by simp)
    simp only [msf_data_pass]
    rw [if_pos hq, ih (fun p hp => h p (by simp [hp]))]
    simp

/-- Entries scanned from files with representable (≤ 255 byte, NUL-free)
relative paths keep names that re-open the right file in the data pass. -/
theorem data_pass_entries_ok (fs : List (List Nat × List Nat))
    (hgood : ∀ p ∈ fs, p.1.length ≤ 255 ∧ ∀ b ∈ p.1, b ≠ 0) :
    ∀ cur, ∀ q ∈ assignOfs cur (fs.map entryOf), cstr q.1.name = q.2.1 := by
  induction fs with
  | nil =>
    intro cur q hq
    simp [assignOfs] at hq
  | cons p rest ih =>
    intro cur q hq
    simp only [List.map_cons, entryOf, assignOfs, List.mem_cons] at hq
    rcases hq with hq | hq
    · rw [hq]
      obtain ⟨h255, h0⟩ := hgood p (by simp)
      show cstr (p.1.take (p.1.length % 256)) = p.1
      rw [Nat.mod_eq_of_lt (by omega), List.take_length]
      exact cstr_eq_self p.1 h0
    · exact ih (fun p2 hp2 => hgood p2 (by simp [hp2])) _ q hq

/-! ### The archive bytes `msf_pack` emits, in closed form -/

/-- Each scanned file occupies at least one table byte. -/
theorem len_le_sum_tbytes (l : List (List Nat × List Nat)) :
    l.length ≤ (l.map tbytes).sum := by
  induction l with
  | nil => simp
  | cons p rest ih =>
    simp only [List.map_cons, List.sum_cons, List.length_cons, tbytes]
    omega

/-- The serialised table occupies exactly `Σ (9 + namelen_i)` bytes. -/
theorem table_bytes_length (fs : List (List Nat × List Nat)) :
    ∀ cur : Nat,
    (((assignOfs cur (fs.map entryOf)).map
      (fun p => entryBytes p.1)).flatten).length = (fs.map tbytes).sum := by
  induction fs with
  | nil =>
    intro cur
    rfl
  | cons p rest ih =>
    intro cur
    simp only [List.map_cons, entryOf, assignOfs, List.flatten_cons,
      List.length_append, List.sum_cons]
    rw [ih]
    have hname : ({ mkEntry p.1 p.2 with ofs := cur } : msf_entry).name.length =
        ({ mkEntry p.1 p.2 with ofs := cur } : msf_entry).namelen := by
      show (p.1.take (p.1.length % 256)).length = p.1.length % 256
      rw [List.length_take]
      exact Nat.min_eq_left (Nat.mod_le _ _)
    rw [entryBytes_length _ hname]
    show 9 + p.1.length % 256 + _ = tbytes p + _
    rw [tbytes]

/-- The first 8 bytes of a packed archive survive the magic probe. -/
theorem magic_of_pack (r : List Nat) :
    (MSF_MAGIC ++ r).take 8 ++
      List.replicate (8 - (MSF_MAGIC ++ r).length) 0 = MSF_MAGIC := by
  have hl : (MSF_MAGIC ++ r).length = 8 + r.length := by
    simp [MSF_MAGIC]
    omega
  rw [hl, show 8 - (8 + r.length) = 0 from by omega]
  simp only [List.replicate_zero, List.append_nil]
  rw [show (8 : Nat) = MSF_MAGIC.length from rfl]
  exact List.take_left _ _

/-- `num_files` is read back exactly. -/
theorem read_num (n : Nat) (rest : List Nat) (h : n < U32) :
    read32be (MSF_MAGIC ++ write32be n ++ rest) 8 = n := by
  have h0 := read32_at MSF_MAGIC rest n h
  rw [show MSF_MAGIC ++ (write32be n ++ rest) =
    MSF_MAGIC ++ write32be n ++ rest from by simp [List.append_assoc]] at h0
  rw [show MSF_MAGIC.length = 8 from rfl] at h0
  exact h0

/-- On a clean nonempty scan of representably-named files whose
header-plus-table size fits `uint32_t`, `msf_pack` writes exactly: magic,
file count, the offset-assigned table, then every file's bytes in table
order — the `assert` passes and every data-pass `fopen` succeeds. -/
theorem msf_pack_out_char (nm : List Nat) (cs : fs_list)
    (hclean : cleanL cs = true)
    (hne : scanL [] cs ≠ [])
    (hassert : 12 + ((scanL [] cs).map tbytes).sum < U32)
    (hgoodn : ∀ p ∈ scanL [] cs, p.1.length ≤ 255 ∧ ∀ b ∈ p.1, b ≠ 0) :
    (msf_pack (fs_node.dir nm cs)).out =
      (MSF_MAGIC ++ write32be (scanL [] cs).length ++
        (((assignOfs (12 + ((scanL [] cs).map tbytes).sum)
          ((scanL [] cs).map entryOf)).map (fun p => entryBytes p.1)).flatten)) ++
      (((assignOfs (12 + ((scanL [] cs).map tbytes).sum)
        ((scanL [] cs).map entryOf)).map (fun p => p.2.2.take p.1.len)).flatten) := by
  have h9 := len_le_sum_tbytes (scanL [] cs)
  have hcount : (scanL [] cs).length < U32 := by omega
  have hfc : ¬ ((scanL [] cs).length = 0) := by
    simpa [List.length_eq_zero] using hne
  simp only [msf_pack]
  rw [msf_pack_walk_char nm cs hclean hcount]
  rw [if_neg hfc]
  have htake : ((scanL [] cs).map entryOf).take (scanL [] cs).length =
      (scanL [] cs).map entryOf := by
    conv_lhs => rw [← List.length_map (scanL [] cs) entryOf]
    exact List.take_length _
  have hmod : (12 + ((scanL [] cs).map tbytes).sum) % U32 =
      12 + ((scanL [] cs).map tbytes).sum := Nat.mod_eq_of_lt hassert
  simp only [htake, hmod]
  have hhtlen : (MSF_MAGIC ++ write32be (scanL [] cs).length ++
      (((assignOfs (12 + ((scanL [] cs).map tbytes).sum)
        ((scanL [] cs).map entryOf)).map
          (fun p => entryBytes p.1)).flatten)).length =
      12 + ((scanL [] cs).map tbytes).sum := by
    simp only [List.length_append]
    rw [table_bytes_length]
    simp [MSF_MAGIC, write32be]
  rw [if_pos hhtlen.symm]
  rw [msf_data_pass_ok _
    (data_pass_entries_ok (scanL [] cs) hgoodn
      (12 + ((scanL [] cs).map tbytes).sum))]

/-! ### C1: the round-trip law -/

/-- The per-file facts packaged in `goodFiles`. -/
theorem goodFiles_spec {l : List (List Nat × List Nat)}
    (h : goodFiles l = true) (p : List Nat × List Nat) (hp : p ∈ l) :
    p.1.length ≤ 255 ∧ ∀ b ∈ p.1, b ≠ 0 := by
  simp only [goodFiles, List.all_eq_true] at h
  have h3 := h p hp
  simp only [Bool.and_eq_true, decide_eq_true_eq, List.all_eq_true] at h3
  exact ⟨h3.1.1, fun b hb => (h3.1.2 b hb).1⟩

/-- The files `msf_unpack` materialises on the success path. -/
theorem msf_unpack_files_eq (s dir : List Nat)
    (hm : s.take 8 ++ List.replicate (8 - s.length) 0 = MSF_MAGIC) :
    (msf_unpack s dir).files =
      (parseEntries s (read32be s 8) 12).1.map
        (fun e => (sn_path dir e.name, (s.drop e.ofs).take e.len)) := by
  unfold msf_unpack
  rw [if_pos hm]

/-- Unpacking the exact byte stream `msf_pack` emits for the scanned files
`fs` materialises, in order, every scanned file under `dir`. -/
theorem unpack_of_packed_files (fs : List (List Nat × List Nat)) (dir : List Nat)
    (hgood : goodFiles fs = true)
    (htotal : 12 + (fs.map tbytes).sum +
      (fs.map (fun p => p.2.length)).sum < U32)
    (hdir : dir.length ≤ 254) :
    (msf_unpack
      ((MSF_MAGIC ++ write32be fs.length ++
        (((assignOfs (12 + (fs.map tbytes).sum) (fs.map entryOf)).map
          (fun p => entryBytes p.1)).flatten)) ++
       (((assignOfs (12 + (fs.map tbytes).sum) (fs.map entryOf)).map
          (fun p => p.2.2.take p.1.len)).flatten)) dir).files =
      fs.map (fun p => (dir ++ 47 :: p.1, p.2)) := by
  have h9 := len_le_sum_tbytes fs
  have hcount : fs.length < U32 := by omega
  -- per-element length facts
  have hlenfs : ∀ p ∈ fs, p.2.length < U32 := by
    intro p hp
    have hmem : p.2.length ∈ fs.map (fun q => q.2.length) :=
      List.mem_map.mpr ⟨p, hp, rfl⟩
    have := List.le_sum_of_mem hmem
    omega
  have hlen : ∀ q ∈ fs.map entryOf, q.1.len = q.2.2.length := by
    intro q hq
    rcases List.mem_map.mp hq with ⟨p, hp, rfl⟩
    show p.2.length % U32 = p.2.length
    exact Nat.mod_eq_of_lt (hlenfs p hp)
  -- the data region is the plain concatenation of the file bytes
  have hdata : ((assignOfs (12 + (fs.map tbytes).sum) (fs.map entryOf)).map
      (fun p => p.2.2.take p.1.len)).flatten =
      ((fs.map entryOf).map (fun p => p.2.2)).flatten := by
    rw [assignOfs_map_data]
    congr 1
    apply List.map_congr_left
    intro q hq
    rw [hlen q hq]
    exact List.take_length _
  -- length of the header-plus-table region
  have hHT : (MSF_MAGIC ++ write32be fs.length ++
      (((assignOfs (12 + (fs.map tbytes).sum) (fs.map entryOf)).map
        (fun p => entryBytes p.1)).flatten)).length =
      12 + (fs.map tbytes).sum := by
    simp only [List.length_append]
    rw [table_bytes_length]
    simp [MSF_MAGIC, write32be]
  -- the magic probe passes
  have hshape : (MSF_MAGIC ++ write32be fs.length ++
      (((assignOfs (12 + (fs.map tbytes).sum) (fs.map entryOf)).map
        (fun p => entryBytes p.1)).flatten)) ++
      (((assignOfs (12 + (fs.map tbytes).sum) (fs.map entryOf)).map
        (fun p => p.2.2.take p.1.len)).flatten) =
      MSF_MAGIC ++ (write32be fs.length ++
        ((((assignOfs (12 + (fs.map tbytes).sum) (fs.map entryOf)).map
          (fun p => entryBytes p.1)).flatten) ++
         (((assignOfs (12 + (fs.map tbytes).sum) (fs.map entryOf)).map
          (fun p => p.2.2.take p.1.len)).flatten))) := by
    simp [List.append_assoc]
  have hm : ((MSF_MAGIC ++ write32be fs.length ++
      (((assignOfs (12 + (fs.map tbytes).sum) (fs.map entryOf)).map
        (fun p => entryBytes p.1)).flatten)) ++
      (((assignOfs (12 + (fs.map tbytes).sum) (fs.map entryOf)).map
        (fun p => p.2.2.take p.1.len)).flatten)).take 8 ++
      List.replicate (8 - ((MSF_MAGIC ++ write32be fs.length ++
        (((assignOfs (12 + (fs.map tbytes).sum) (fs.map entryOf)).map
          (fun p => entryBytes p.1)).flatten)) ++
        (((assignOfs (12 + (fs.map tbytes).sum) (fs.map entryOf)).map
          (fun p => p.2.2.take p.1.len)).flatten)).length) 0 = MSF_MAGIC := by
    rw [hshape]
    exact magic_of_pack _
  rw [msf_unpack_files_eq _ dir hm]
  -- the file count reads back
  have hnum : read32be ((MSF_MAGIC ++ write32be fs.length ++
      (((assignOfs (12 + (fs.map tbytes).sum) (fs.map entryOf)).map
        (fun p => entryBytes p.1)).flatten)) ++
      (((assignOfs (12 + (fs.map tbytes).sum) (fs.map entryOf)).map
        (fun p => p.2.2.take p.1.len)).flatten)) 8 = fs.length := by
    rw [show (MSF_MAGIC ++ write32be fs.length ++
      (((assignOfs (12 + (fs.map tbytes).sum) (fs.map entryOf)).map
        (fun p => entryBytes p.1)).flatten)) ++
      (((assignOfs (12 + (fs.map tbytes).sum) (fs.map entryOf)).map
        (fun p => p.2.2.take p.1.len)).flatten) =
      MSF_MAGIC ++ write32be fs.length ++
        ((((assignOfs (12 + (fs.map tbytes).sum) (fs.map entryOf)).map
          (fun p => entryBytes p.1)).flatten) ++
         (((assignOfs (12 + (fs.map tbytes).sum) (fs.map entryOf)).map
          (fun p => p.2.2.take p.1.len)).flatten)) from by simp [List.append_assoc]]
    exact read_num fs.length _ hcount
  rw [hnum]
  -- the table parses back verbatim
  have hwf := assign_entry_wf fs (12 + (fs.map tbytes).sum)
    (by omega)
  have hlen_tbl : ((assignOfs (12 + (fs.map tbytes).sum)
      (fs.map entryOf)).map Prod.fst).length = fs.length := by
    rw [List.length_map, assignOfs_length, List.length_map]
  have hTB : ((assignOfs (12 + (fs.map tbytes).sum)
      (fs.map entryOf)).map Prod.fst).map entryBytes =
      (assignOfs (12 + (fs.map tbytes).sum) (fs.map entryOf)).map
        (fun p => entryBytes p.1) := by
    rw [List.map_map]
    rfl
  have hparse := parse_entries_round
    ((assignOfs (12 + (fs.map tbytes).sum) (fs.map entryOf)).map Prod.fst)
    hwf
    (MSF_MAGIC ++ write32be fs.length)
    (((assignOfs (12 + (fs.map tbytes).sum) (fs.map entryOf)).map
      (fun p => p.2.2.take p.1.len)).flatten)
  rw [show (MSF_MAGIC ++ write32be fs.length).length = 12 from rfl] at hparse
  rw [hlen_tbl, hTB] at hparse
  rw [show MSF_MAGIC ++ write32be fs.length ++
      ((((assignOfs (12 + (fs.map tbytes).sum) (fs.map entryOf)).map
        (fun p => entryBytes p.1)).flatten) ++
       (((assignOfs (12 + (fs.map tbytes).sum) (fs.map entryOf)).map
        (fun p => p.2.2.take p.1.len)).flatten)) =
      (MSF_MAGIC ++ write32be fs.length ++
        (((assignOfs (12 + (fs.map tbytes).sum) (fs.map entryOf)).map
          (fun p => entryBytes p.1)).flatten)) ++
      (((assignOfs (12 + (fs.map tbytes).sum) (fs.map entryOf)).map
        (fun p => p.2.2.take p.1.len)).flatten) from by
    simp [List.append_assoc]] at hparse
  rw [hparse]
  -- the extraction loop recovers every file
  have hsOUT : (MSF_MAGIC ++ write32be fs.length ++
      (((assignOfs (12 + (fs.map tbytes).sum) (fs.map entryOf)).map
        (fun p => entryBytes p.1)).flatten)) ++
      (((assignOfs (12 + (fs.map tbytes).sum) (fs.map entryOf)).map
        (fun p => p.2.2.take p.1.len)).flatten) =
      (MSF_MAGIC ++ write32be fs.length ++
        (((assignOfs (12 + (fs.map tbytes).sum) (fs.map entryOf)).map
          (fun p => entryBytes p.1)).flatten)) ++
      ((fs.map entryOf).map (fun p => p.2.2)).flatten := by
    rw [hdata]
  have hfiles := assign_files (fs.map entryOf)
    (MSF_MAGIC ++ write32be fs.length ++
      (((assignOfs (12 + (fs.map tbytes).sum) (fs.map entryOf)).map
        (fun p => entryBytes p.1)).flatten))
    ((MSF_MAGIC ++ write32be fs.length ++
      (((assignOfs (12 + (fs.map tbytes).sum) (fs.map entryOf)).map
        (fun p => entryBytes p.1)).flatten)) ++
      (((assignOfs (12 + (fs.map tbytes).sum) (fs.map entryOf)).map
        (fun p => p.2.2.take p.1.len)).flatten))
    dir hlen hsOUT
    (by
      rw [hHT]
      have hmapl : (fs.map entryOf).map (fun p => p.2.2.length) =
          fs.map (fun p => p.2.length) := by
        rw [List.map_map]
        rfl
      rw [hmapl]
      omega)
  rw [hHT] at hfiles
  rw [hfiles]
  -- finally, each materialised path is `dir/relpath`
  rw [List.map_map]
  apply List.map_congr_left
  intro p hp
  obtain ⟨h255, h0⟩ := goodFiles_spec hgood p hp
  show (sn_path dir (mkEntry p.1 p.2).name, p.2) = (dir ++ 47 :: p.1, p.2)
  have hname : (mkEntry p.1 p.2).name = p.1 := by
    show p.1.take (p.1.length % 256) = p.1
    rw [Nat.mod_eq_of_lt (by omega)]
    exact List.take_length _
  rw [hname]
  show ((dir ++ 47 :: cstr p.1).take 510, p.2) = (dir ++ 47 :: p.1, p.2)
  rw [cstr_eq_self p.1 h0]
  have hfit : (dir ++ 47 :: p.1).length ≤ 510 := by
    simp only [List.length_append, List.length_cons]
    omega
  rw [List.take_of_length_le hfit]

/-- C1 (amended): for every directory tree whose scanner-visible regular
files (hidden `.`-entries are skipped by design, see C8) have relative
paths of at most 255 nonzero bytes, every file smaller than `2^32` bytes
and header + table + data smaller than `2^32` bytes in total, and for
every destination directory name of at most 254 bytes (so the composed
paths fit `msf_unpack`'s 511-byte buffer), unpacking the archive written
by `msf_pack` materialises exactly the scanned files — same relative
paths, byte-identical contents, in scan order; hence the same set of
files for every traversal order of the same tree. -/
theorem msf_pack_unpack_roundtrip (nm : List Nat) (cs : fs_list)
    (dir : List Nat)
    (hclean : cleanL cs = true)
    (hgood : goodFiles (scanL [] cs) = true)
    (htotal : 12 + ((scanL [] cs).map tbytes).sum +
      ((scanL [] cs).map (fun p => p.2.length)).sum < U32)
    (hdir : dir.length ≤ 254) :
    (msf_unpack (msf_pack (fs_node.dir nm cs)).out dir).files =
      (scanL [] cs).map (fun p => (dir ++ 47 :: p.1, p.2)) := by
  by_cases hne : scanL [] cs = []
  · have hout : (msf_pack (fs_node.dir nm cs)).out = [] := by
      simp only [msf_pack]
      rw [msf_pack_walk_char nm cs hclean (by rw [hne]; norm_num [U32])]
      rw [if_pos (by show (scanL [] cs).length = 0; rw [hne]; rfl)]
    rw [hout, hne]
    have hm : (([] : List Nat).take 8 ++
        List.replicate (8 - ([] : List Nat).length) 0) ≠ MSF_MAGIC := by
      decide
    unfold msf_unpack
    rw [if_neg hm]
    rfl
  · have h9 := len_le_sum_tbytes (scanL [] cs)
    have hassert : 12 + ((scanL [] cs).map tbytes).sum < U32 := by omega
    rw [msf_pack_out_char nm cs hclean hne hassert
      (fun p hp => goodFiles_spec hgood p hp)]
    exact unpack_of_packed_files (scanL [] cs) dir hgood htotal hdir

set_option maxRecDepth 100000 in
/-- C1 counterexample: the tree holding the two regular files `.h` (1
byte) and `v` (1 byte) — both names well under 255 bytes — does not round
trip: the scanner skips the hidden file, so unpacking the packed archive
materialises only `v`; no materialised path corresponds to `.h`. -/
theorem msf_roundtrip_hidden_cex :
    (msf_unpack (msf_pack hiddenTree).out [100]).files =
      [([100, 47, 118], [2])] ∧
    (msf_unpack (msf_pack hiddenTree).out [100]).files.length ≠ 2 ∧
    hiddenTree = fs_node.dir [114]
      (fs_list.cons (fs_node.file [46, 104] [1])
        (fs_list.cons (fs_node.file [118] [2]) fs_list.nil)) := by
  refine ⟨by decide, by decide, rfl⟩

set_option maxRecDepth 400000 in
/-- Witness for C1 on the concrete scenario of spec §8: `readme.txt`
("hello world") and `sub/data.bin` (3 bytes), unpacked into `out`. -/
theorem msf_pack_unpack_roundtrip_witness :
    (cleanL (fs_list.cons
      (fs_node.file [114, 101, 97, 100, 109, 101, 46, 116, 120, 116]
        [104, 101, 108, 108, 111, 32, 119, 111, 114, 108, 100])
      (fs_list.cons
        (fs_node.dir [115, 117, 98]
          (fs_list.cons
            (fs_node.file [100, 97, 116, 97, 46, 98, 105, 110] [1, 2, 3])
            fs_list.nil))
        fs_list.nil)) = true) ∧
    (msf_unpack (msf_pack (fs_node.dir [114] (fs_list.cons
      (fs_node.file [114, 101, 97, 100, 109, 101, 46, 116, 120, 116]
        [104, 101, 108, 108, 111, 32, 119, 111, 114, 108, 100])
      (fs_list.cons
        (fs_node.dir [115, 117, 98]
          (fs_list.cons
            (fs_node.file [100, 97, 116, 97, 46, 98, 105, 110] [1, 2, 3])
            fs_list.nil))
        fs_list.nil)))).out [111, 117, 116]).files =
      (scanL [] (fs_list.cons
        (fs_node.file [114, 101, 97, 100, 109, 101, 46, 116, 120, 116]
          [104, 101, 108, 108, 111, 32, 119, 111, 114, 108, 100])
        (fs_list.cons
          (fs_node.dir [115, 117, 98]
            (fs_list.cons
              (fs_node.file [100, 97, 116, 97, 46, 98, 105, 110] [1, 2, 3])
              fs_list.nil))
          fs_list.nil))).map
        (fun p => ([111, 117, 116] ++ 47 :: p.1, p.2)) :=
  ⟨by decide,
    msf_pack_unpack_roundtrip [114] _ [111, 117, 116]
      (by decide) (by decide) (by decide) (by decide)⟩

end MSF
